import Mathlib

/-!
Shallow embedding of the Evobird genetic-algorithm core
(`src/libs/genetic-algorithm/src/lib.rs`) and of the genome/network adapter
(`src/libs/simulation/src/brain.rs`).

Modelling conventions:
* 32-bit floats (`f32`) are modelled as rationals `ℚ`.
* The random source (`rand::RngCore`) is modelled as an infinite stream of
  rationals in `[0,1)` together with a position; every primitive draw reads
  the value at the current position and advances the position by one.
  `gen_bool(p)` draws `u` and returns `u < p`; `gen::<f32>()` draws `u`
  directly.
* Rust panics (`assert!`, `assert_eq!`, `.expect(..)`) are modelled by the
  `Except GaPanic` monad, one constructor per panic site.
-/

namespace Evobird

/-- The random source: an infinite tape of rational draws plus the current
position.  Models `rand::RngCore` as an opaque deterministic stream. -/
structure Rng where
  stream : ℕ → ℚ
  pos : ℕ

/-- Consume one raw draw from the source. -/
def Rng.next (r : Rng) : ℚ × Rng :=
  (r.stream r.pos, ⟨r.stream, r.pos + 1⟩)

/-- Model of `rng.gen_bool(p)`: one draw `u`, result `u < p`. -/
def Rng.genBool (r : Rng) (p : ℚ) : Bool × Rng :=
  let (u, r1) := r.next
  (if u < p then true else false, r1)

/-- Model of `rng.gen::<f32>()`: one uniform draw in `[0,1)`. -/
def Rng.genFloat (r : Rng) : ℚ × Rng :=
  r.next

/-- A well-formed random source only produces draws in `[0,1)`. -/
def Rng.WellFormed (r : Rng) : Prop :=
  ∀ n, 0 ≤ r.stream n ∧ r.stream n < 1

/-- Two random sources are in the same state when they will produce the same
sequence of draws from their current positions on. -/
def Rng.Agrees (r1 r2 : Rng) : Prop :=
  ∀ n, r1.stream (r1.pos + n) = r2.stream (r2.pos + n)

/-- `Chromosome`: an ordered vector of real-valued genes. -/
structure Chromosome where
  genes : List ℚ
deriving DecidableEq, Repr

/-- `Chromosome::len`. -/
def Chromosome.len (c : Chromosome) : ℕ :=
  c.genes.length

/-- `Chromosome::from_iter`: build a chromosome by collecting a sequence of
floats. -/
def Chromosome.from_iter (l : List ℚ) : Chromosome :=
  ⟨l⟩

/-- `Chromosome::into_iter`: decompose a chromosome into its ordered gene
sequence. -/
def Chromosome.into_iter (c : Chromosome) : List ℚ :=
  c.genes

/-- One constructor per panic site of the Rust code:
`emptyPopulation` for the `assert!(!population.is_empty())` checks in
`evolve` and `Statistics::new`; `gotEmptyPopulation` for the
`.expect("got an empty population")` in `RouletteWheelSelection::select`;
`lengthMismatch` for the `assert_eq!` in `UniformCrossover::crossover`;
`invalidParameter` for the range assert in `GaussianMutation::new`. -/
inductive GaPanic where
  | emptyPopulation
  | gotEmptyPopulation
  | lengthMismatch
  | invalidParameter
deriving DecidableEq, Repr

/-- The `Individual` trait: fitness score, chromosome view, and construction
from a chromosome. -/
structure Individual (I : Type) where
  fitness : I → ℚ
  chromosome : I → Chromosome
  create : Chromosome → I

/-- Inverse-CDF walk used by the weighted-choice primitive: return the first
item whose cumulative weight exceeds the target `t`. -/
def pickByWeight {I : Type} (w : I → ℚ) : List I → ℚ → Option I
  | [], _ => none
  | x :: xs, t => if t < w x then some x else pickByWeight w xs (t - w x)

/-- Modelled from the spec: the opaque random-source capability's
weighted-choice selection (`SliceRandom::choose_weighted` of the `rand`
crate, which is not part of this repository).  Following its documented
contract it fails (returns `none`) on an empty sequence, on a negative
weight, and when the total weight is not positive; otherwise it draws one
uniform value `u` in `[0,1)` and returns the first item whose cumulative
weight exceeds `u * total`. -/
def chooseWeighted {I : Type} (r : Rng) (items : List I) (w : I → ℚ) :
    Option (I × Rng) :=
  match items with
  | [] => none
  | _ :: _ =>
    if ∃ x ∈ items, w x < 0 then none
    else
      let total := (items.map w).sum
      if total ≤ 0 then none
      else
        let (u, r1) := r.next
        match pickByWeight w items (u * total) with
        | some x => some (x, r1)
        | none => none

/-- `RouletteWheelSelection::select`: weighted choice by fitness; any failure
of the weighted-choice primitive hits the
`.expect("got an empty population")` panic. -/
def RouletteWheelSelection.select {I : Type} (ind : Individual I) (r : Rng)
    (population : List I) : Except GaPanic (I × Rng) :=
  match chooseWeighted r population ind.fitness with
  | some res => .ok res
  | none => .error .gotEmptyPopulation

/-- The zipped gene walk of `UniformCrossover::crossover`: one
`gen_bool(0.5)` draw per gene pair, in gene order; `true` takes parent A's
gene, `false` parent B's. -/
def crossoverGo : Rng → List ℚ → List ℚ → List ℚ × Rng
  | r, a :: xs, b :: ys =>
    let (bit, r1) := r.genBool (1 / 2)
    let g := if bit then a else b
    let (rest, r2) := crossoverGo r1 xs ys
    (g :: rest, r2)
  | r, _, _ => ([], r)

/-- `UniformCrossover::crossover`: asserts equal parent lengths, then picks
each gene from one of the two parents with a fresh fifty-fifty draw. -/
def UniformCrossover.crossover (r : Rng) (parent_a parent_b : Chromosome) :
    Except GaPanic (Chromosome × Rng) :=
  if parent_a.len = parent_b.len then
    let (gs, r1) := crossoverGo r parent_a.genes parent_b.genes
    .ok (⟨gs⟩, r1)
  else
    .error .lengthMismatch

/-- `GaussianMutation`: probability `chance` of touching a gene, magnitude
coefficient `coeff`. -/
structure GaussianMutation where
  chance : ℚ
  coeff : ℚ
deriving DecidableEq, Repr

/-- `GaussianMutation::new`: asserts `chance ∈ [0,1]`. -/
def GaussianMutation.new (chance coeff : ℚ) :
    Except GaPanic GaussianMutation :=
  if 0 ≤ chance ∧ chance ≤ 1 then .ok ⟨chance, coeff⟩
  else .error .invalidParameter

/-- The gene loop of `GaussianMutation::mutate`: for each gene in order,
draw the sign (`gen_bool(0.5)`, `-1` on `true` else `1`), then draw whether
the gene is touched (`gen_bool(chance)`), and only if touched draw a
magnitude `u` and add `sign * coeff * u`. -/
def mutateGo (mu : GaussianMutation) : Rng → List ℚ → List ℚ × Rng
  | r, [] => ([], r)
  | r, g :: gs =>
    let (b1, r1) := r.genBool (1 / 2)
    let sign : ℚ := if b1 then -1 else 1
    let (b2, r2) := r1.genBool mu.chance
    if b2 then
      let (u, r3) := r2.genFloat
      let (rest, r4) := mutateGo mu r3 gs
      ((g + sign * mu.coeff * u) :: rest, r4)
    else
      let (rest, r3) := mutateGo mu r2 gs
      (g :: rest, r3)

/-- `GaussianMutation::mutate` on a chromosome. -/
def GaussianMutation.mutate (mu : GaussianMutation) (r : Rng)
    (child : Chromosome) : Chromosome × Rng :=
  let (gs, r1) := mutateGo mu r child.genes
  (⟨gs⟩, r1)

/-- `Statistics`: min/max/average fitness snapshot. -/
structure Statistics where
  min_fitness : ℚ
  max_fitness : ℚ
  avg_fitness : ℚ
deriving DecidableEq, Repr

/-- `Statistics::new`: asserts a non-empty population, then one fold over the
population starting from the first individual's fitness, accumulating
min, max and sum; the average divides the sum by the population size. -/
def Statistics.new {I : Type} (ind : Individual I) (population : List I) :
    Except GaPanic Statistics :=
  match population with
  | [] => .error .emptyPopulation
  | p0 :: _ =>
    let f0 := ind.fitness p0
    let acc := population.foldl
      (fun acc i =>
        (min acc.1 (ind.fitness i), max acc.2.1 (ind.fitness i),
          acc.2.2 + ind.fitness i))
      (f0, f0, 0)
    .ok ⟨acc.1, acc.2.1, acc.2.2 / (population.length : ℚ)⟩

/-- `GeneticAlgorithm`: one selection, one crossover and one mutation
strategy, held for the whole run. -/
structure GeneticAlgorithm (I : Type) where
  selection_method : Rng → List I → Except GaPanic (I × Rng)
  crossover_method : Rng → Chromosome → Chromosome → Except GaPanic (Chromosome × Rng)
  mutation_method : Rng → Chromosome → Chromosome × Rng

/-- The body of the per-slot closure inside `GeneticAlgorithm::evolve`:
select parent A, select parent B, crossover their chromosomes, mutate the
child, and construct the new individual from it. -/
def evolveStep {I : Type} (ga : GeneticAlgorithm I) (ind : Individual I)
    (population : List I) (r : Rng) : Except GaPanic (I × Rng) :=
  match ga.selection_method r population with
  | .error e => .error e
  | .ok (pa, r1) =>
    match ga.selection_method r1 population with
    | .error e => .error e
    | .ok (pb, r2) =>
      match ga.crossover_method r2 (ind.chromosome pa) (ind.chromosome pb) with
      | .error e => .error e
      | .ok (child, r3) =>
        let (mutated, r4) := ga.mutation_method r3 child
        .ok (ind.create mutated, r4)

/-- The `(0..population.len()).map(..).collect()` loop of `evolve`: produce
`n` new individuals by running `evolveStep` `n` times, threading the random
source through. -/
def evolveGo {I : Type} (ga : GeneticAlgorithm I) (ind : Individual I)
    (population : List I) : ℕ → Rng → Except GaPanic (List I × Rng)
  | 0, r => .ok ([], r)
  | n + 1, r =>
    match evolveStep ga ind population r with
    | .error e => .error e
    | .ok (x, r1) =>
      match evolveGo ga ind population n r1 with
      | .error e => .error e
      | .ok (xs, r2) => .ok (x :: xs, r2)

/-- `GeneticAlgorithm::evolve`: asserts a non-empty population, builds the
new population of the same size, and returns it with statistics computed
over the input population. -/
def GeneticAlgorithm.evolve {I : Type} (ga : GeneticAlgorithm I)
    (ind : Individual I) (r : Rng) (population : List I) :
    Except GaPanic (List I × Statistics × Rng) :=
  match population with
  | [] => .error .emptyPopulation
  | _ :: _ =>
    match evolveGo ga ind population population.length r with
    | .error e => .error e
    | .ok (newPop, r1) =>
      match Statistics.new ind population with
      | .error e => .error e
      | .ok stats => .ok (newPop, stats, r1)

/-- The concrete strategy triple used by the repository's own test suite:
roulette-wheel selection, uniform crossover, gaussian mutation. -/
def gaOf {I : Type} (ind : Individual I) (mu : GaussianMutation) :
    GeneticAlgorithm I :=
  ⟨RouletteWheelSelection.select ind, UniformCrossover.crossover, mu.mutate⟩

/-- A concrete `Individual` instance on bare chromosomes whose fitness is the
sum of the genes (the fitness function of the repository's
`TestIndividual`). -/
def chromoIndividual : Individual Chromosome :=
  ⟨fun c => c.genes.sum, fun c => c, fun c => c⟩

/-- Transcription of claim C2's wording as one left fold over the genes in
genome order: per gene first the sign draw (uniform over `{-1,+1}`), then
the touch draw (`true` with probability `chance`), and only if touched a
magnitude draw `u`, after which the gene becomes `gene + sign * coeff * u`;
untouched genes are appended unchanged. -/
def mutateClaimStep (mu : GaussianMutation) (acc : List ℚ × Rng) (g : ℚ) :
    List ℚ × Rng :=
  let (signBit, ra) := acc.2.genBool (1 / 2)
  let sign : ℚ := if signBit then -1 else 1
  let (touched, rb) := ra.genBool mu.chance
  if touched then
    let (u, rc) := rb.genFloat
    (acc.1 ++ [g + sign * mu.coeff * u], rc)
  else
    (acc.1 ++ [g], rb)

/-- The claim-side mutation: fold `mutateClaimStep` over the genes. -/
def mutateClaim (mu : GaussianMutation) (r : Rng) (child : Chromosome) :
    Chromosome × Rng :=
  let (gs, r1) := child.genes.foldl (mutateClaimStep mu) ([], r)
  (⟨gs⟩, r1)

/-- Cumulative fitness of the first `i` members of the population. -/
def cumFitness {I : Type} (ind : Individual I) (population : List I) (i : ℕ) : ℚ :=
  ((population.map ind.fitness).take i).sum

/-- `StepChain r xs r1` says the individuals `xs` are produced, in order, by
successive runs of `evolveStep` — two selections, one crossover, one
mutation pass, one construction each — threading the random source from `r`
to `r1`. -/
def StepChain {I : Type} (ga : GeneticAlgorithm I) (ind : Individual I)
    (population : List I) : Rng → List I → Rng → Prop
  | r, [], r1 => r1 = r
  | r, x :: xs, r1 =>
    ∃ rm, evolveStep ga ind population r = .ok (x, rm) ∧
      StepChain ga ind population rm xs r1

/-- Modelled from the spec: the sensor descriptor (the simulation's `Eye`,
whose source is not part of this repository) exposes only a cell count. -/
structure Eye where
  cells : ℕ

/-- `nn::LayerTopology`: the neuron count of one layer. -/
structure LayerTopology where
  neurons : ℕ
deriving DecidableEq, Repr

/-- Weight count of the layers following a layer of `p` neurons: each dense
layer holds one weight per input neuron plus one bias per neuron. -/
def layersWeightCount : ℕ → List LayerTopology → ℕ
  | _, [] => 0
  | p, l :: ls => l.neurons * (p + 1) + layersWeightCount l.neurons ls

/-- Total weight count required by a topology. -/
def weightCount : List LayerTopology → ℕ
  | [] => 0
  | l :: ls => layersWeightCount l.neurons ls

/-- Modelled from the spec: the external network capability
(`nn::Network`, whose source is not part of this repository), reduced to
what the spec's boundary contract exposes — the topology it was built with
and its ordered weight sequence. -/
structure Network where
  topology : List LayerTopology
  weights : List ℚ
deriving DecidableEq, Repr

/-- Modelled from the spec: `random(topology) → network` builds a network of
that topology with `weightCount topology` weights; the weight values
themselves are outside the boundary contract. -/
def Network.random (t : List LayerTopology) : Network :=
  ⟨t, List.replicate (weightCount t) 0⟩

/-- Modelled from the spec: `from_weights(topology, ordered weights)` fails
if the weight count mismatches the topology, else builds the network from
the weights in chromosome order. -/
def Network.from_weights (t : List LayerTopology) (c : Chromosome) :
    Except GaPanic Network :=
  if c.len = weightCount t then .ok ⟨t, c.genes⟩
  else .error .lengthMismatch

/-- `Brain` wraps one network. -/
structure Brain where
  nn : Network
deriving DecidableEq, Repr

/-- `Brain::topology`: input layer sized to the eye's cell count, hidden
layer twice that, output layer of 2. -/
def Brain.topology (eye : Eye) : List LayerTopology :=
  [⟨eye.cells⟩, ⟨2 * eye.cells⟩, ⟨2⟩]

/-- `Brain::random`: the passed random source is unused by the source
(`_rng`); the network is built from the derived topology. -/
def Brain.random (_r : Rng) (eye : Eye) : Brain :=
  ⟨Network.random (Brain.topology eye)⟩

/-- `Brain::from_chromosome`: build the network from the derived topology
and the chromosome's genes. -/
def Brain.from_chromosome (c : Chromosome) (eye : Eye) :
    Except GaPanic Brain :=
  (Network.from_weights (Brain.topology eye) c).map Brain.mk

/-- `Brain::as_chromosome`: collect the network's ordered weights. -/
def Brain.as_chromosome (b : Brain) : Chromosome :=
  ⟨b.nn.weights⟩

/-- C6: building a `Chromosome` from a non-empty sequence of floats and
decomposing it back into a sequence of floats reproduces the original
sequence in the original order (exact round-trip in the rational model). -/
theorem c6_chromosome_roundtrip (l : List ℚ) (_h : l ≠ []) :
    Chromosome.into_iter (Chromosome.from_iter l) = l :=
  rfl

theorem c6_chromosome_roundtrip_witness :
    ([(1 : ℚ), 2, 3] ≠ []) ∧
      Chromosome.into_iter (Chromosome.from_iter [(1 : ℚ), 2, 3]) = [(1 : ℚ), 2, 3] :=
  ⟨by simp, c6_chromosome_roundtrip [(1 : ℚ), 2, 3] (by simp)⟩

/-- C8: the three fatal-failure scenarios: `evolve` on an empty population
fails with `emptyPopulation` before producing any output; `crossover` on
parents of lengths 3 and 4 fails with `lengthMismatch`;
`GaussianMutation::new` with `chance = 1.5` fails with `invalidParameter`. -/
theorem c8_fatal_failures :
    (∀ (I : Type) (ga : GeneticAlgorithm I) (ind : Individual I) (r : Rng),
        ga.evolve ind r [] = .error .emptyPopulation) ∧
    (∀ r : Rng,
        UniformCrossover.crossover r ⟨[1, 2, 3]⟩ ⟨[1, 2, 3, 4]⟩ =
          .error .lengthMismatch) ∧
    GaussianMutation.new (3 / 2) (1 / 2) = .error .invalidParameter := by
  refine ⟨fun I ga ind r => rfl, fun r => ?_, ?_⟩
  · simp [UniformCrossover.crossover, Chromosome.len]
  · have h : ¬((0 : ℚ) ≤ 3 / 2 ∧ (3 : ℚ) / 2 ≤ 1) := by norm_num
    simp [GaussianMutation.new, h]

/-- C9: for every eye with cell count `c` the adapter derives exactly the
3-layer topology `[c, 2*c, 2]`, and this same topology is the one carried by
the network built by `Brain::random`, by the network built by
`Brain::from_chromosome`, and matched by the weight count of the chromosome
extracted from such a brain. -/
theorem c9_brain_topology (eye : Eye) (r : Rng) (c : Chromosome) :
    (Brain.topology eye).map LayerTopology.neurons = [eye.cells, 2 * eye.cells, 2] ∧
    (Brain.random r eye).nn.topology = Brain.topology eye ∧
    (∀ b : Brain, Brain.from_chromosome c eye = .ok b →
        b.nn.topology = Brain.topology eye) ∧
    (∀ b : Brain, Brain.from_chromosome c eye = .ok b →
        (Brain.as_chromosome b).len = weightCount (Brain.topology eye)) := by
  refine ⟨rfl, rfl, ?_, ?_⟩ <;>
    · intro b hb
      unfold Brain.from_chromosome Network.from_weights at hb
      by_cases h : c.len = weightCount (Brain.topology eye)
      · rw [if_pos h] at hb
        simp only [Except.map] at hb
        cases hb
        first
        | rfl
        | simpa [Brain.as_chromosome, Chromosome.len] using h
      · rw [if_neg h] at hb
        simp [Except.map] at hb

def ch10 : Chromosome := ⟨List.replicate 10 0⟩

def brain10 : Brain := ⟨⟨Brain.topology ⟨1⟩, ch10.genes⟩⟩

theorem c9_brain_topology_witness :
    Brain.from_chromosome ch10 ⟨1⟩ = .ok brain10 ∧
    brain10.nn.topology = Brain.topology ⟨1⟩ ∧
    (Brain.as_chromosome brain10).len = weightCount (Brain.topology ⟨1⟩) :=
  ⟨rfl, (c9_brain_topology ⟨1⟩ ⟨fun _ => 0, 0⟩ ch10).2.2.1 brain10 rfl,
    (c9_brain_topology ⟨1⟩ ⟨fun _ => 0, 0⟩ ch10).2.2.2 brain10 rfl⟩

theorem foldl_mutateClaimStep (mu : GaussianMutation) (gs : List ℚ) :
    ∀ (acc : List ℚ) (r : Rng),
      gs.foldl (mutateClaimStep mu) (acc, r) =
        (acc ++ (mutateGo mu r gs).1, (mutateGo mu r gs).2) := by
  induction gs with
  | nil => intro acc r; simp [mutateGo]
  | cons g gs ih =>
    intro acc r
    by_cases hc : r.stream (r.pos + 1) < mu.chance
    · simp [mutateClaimStep, mutateGo, Rng.genBool, Rng.genFloat, Rng.next,
        hc, ih]
    · simp [mutateClaimStep, mutateGo, Rng.genBool, Rng.genFloat, Rng.next,
        hc, ih]

/-- C2: `GaussianMutation::mutate` visits genes in genome order and consumes,
per gene, first the sign draw, then the touch draw, and only if touched a
magnitude draw `u`, adding `sign * coefficient * u` to the gene; untouched
genes are left unchanged.  Stated as equality with `mutateClaim`, the fold
transcribed from the claim's wording. -/
theorem c2_gaussian_mutation_order (mu : GaussianMutation) (r : Rng)
    (c : Chromosome) :
    GaussianMutation.mutate mu r c = mutateClaim mu r c := by
  simp [GaussianMutation.mutate, mutateClaim, foldl_mutateClaimStep]

theorem crossoverGo_spec :
    ∀ (xs ys : List ℚ) (r : Rng), xs.length = ys.length →
      (crossoverGo r xs ys).1.length = xs.length ∧
      (crossoverGo r xs ys).2 = ⟨r.stream, r.pos + xs.length⟩ ∧
      ∀ i (hx : i < xs.length) (hy : i < ys.length)
        (hz : i < (crossoverGo r xs ys).1.length),
        (crossoverGo r xs ys).1.get ⟨i, hz⟩ =
          if r.stream (r.pos + i) < 1 / 2 then xs.get ⟨i, hx⟩
          else ys.get ⟨i, hy⟩
  | [], [], r, _ => by simp [crossoverGo]
  | [], y :: ys, r, h => by simp at h
  | x :: xs, [], r, h => by simp at h
  | x :: xs, y :: ys, r, h => by
    have h' : xs.length = ys.length := by simpa using h
    have ih := crossoverGo_spec xs ys ⟨r.stream, r.pos + 1⟩ h'
    refine ⟨?_, ?_, ?_⟩
    · simpa [crossoverGo, Rng.genBool, Rng.next] using ih.1
    · have harith : r.pos + 1 + xs.length = r.pos + (xs.length + 1) := by omega
      simp only [crossoverGo, Rng.genBool, Rng.next, List.length_cons]
      rw [ih.2.1]
      simp [harith]
    · intro i hx hy hz
      match i with
      | 0 =>
        by_cases hp : r.stream r.pos < 1 / 2 <;>
          simp [crossoverGo, Rng.genBool, Rng.next, hp]
      | j + 1 =>
        have harith : r.pos + 1 + j = r.pos + (j + 1) := by omega
        have hx' : j < xs.length := by simpa using hx
        have hy' : j < ys.length := by simpa using hy
        have hz' : j < (crossoverGo ⟨r.stream, r.pos + 1⟩ xs ys).1.length := by
          rw [ih.1]; exact hx'
        have := ih.2.2 j hx' hy' hz'
        simp only [crossoverGo, Rng.genBool, Rng.next, List.get_cons_succ]
        rw [harith] at this
        simpa using this

/-- C4: for parents of equal length, `UniformCrossover::crossover` returns a
chromosome of that length whose gene at every position is copied from parent
A or parent B at that position, chosen by a fresh fifty-fifty draw per
position in gene order (position `i` is decided by draw `i`). -/
theorem c4_uniform_crossover (r : Rng) (a b : Chromosome)
    (h : a.len = b.len) :
    ∃ child r1, UniformCrossover.crossover r a b = .ok (child, r1) ∧
      child.len = a.len ∧
      (∀ i (ha : i < a.genes.length) (hb : i < b.genes.length)
          (hc : i < child.genes.length),
          child.genes.get ⟨i, hc⟩ = a.genes.get ⟨i, ha⟩ ∨
            child.genes.get ⟨i, hc⟩ = b.genes.get ⟨i, hb⟩) ∧
      (∀ i (ha : i < a.genes.length) (hb : i < b.genes.length)
          (hc : i < child.genes.length),
          child.genes.get ⟨i, hc⟩ =
            if r.stream (r.pos + i) < 1 / 2 then a.genes.get ⟨i, ha⟩
            else b.genes.get ⟨i, hb⟩) := by
  have hspec := crossoverGo_spec a.genes b.genes r h
  refine ⟨⟨(crossoverGo r a.genes b.genes).1⟩, (crossoverGo r a.genes b.genes).2,
    ?_, hspec.1, ?_, ?_⟩
  · simp [UniformCrossover.crossover, h]
  · intro i ha hb hc
    rcases lt_or_le (r.stream (r.pos + i)) (1 / 2) with hp | hp
    · exact Or.inl (by rw [hspec.2.2 i ha hb hc, if_pos hp])
    · exact Or.inr (by rw [hspec.2.2 i ha hb hc, if_neg (not_lt.mpr hp)])
  · exact hspec.2.2

theorem c4_uniform_crossover_witness :
    (Chromosome.mk [1, 2]).len = (Chromosome.mk [3, 4]).len ∧
      (∃ child r1,
        UniformCrossover.crossover ⟨fun _ => 0, 0⟩ ⟨[1, 2]⟩ ⟨[3, 4]⟩ =
          .ok (child, r1) ∧
        child.len = (Chromosome.mk [1, 2]).len ∧
        (∀ i (ha : i < (Chromosome.mk [1, 2]).genes.length)
            (hb : i < (Chromosome.mk [3, 4]).genes.length)
            (hc : i < child.genes.length),
            child.genes.get ⟨i, hc⟩ = (Chromosome.mk [1, 2]).genes.get ⟨i, ha⟩ ∨
              child.genes.get ⟨i, hc⟩ = (Chromosome.mk [3, 4]).genes.get ⟨i, hb⟩) ∧
        (∀ i (ha : i < (Chromosome.mk [1, 2]).genes.length)
            (hb : i < (Chromosome.mk [3, 4]).genes.length)
            (hc : i < child.genes.length),
            child.genes.get ⟨i, hc⟩ =
              if (fun _ => (0 : ℚ)) (0 + i) < 1 / 2 then
                (Chromosome.mk [1, 2]).genes.get ⟨i, ha⟩
              else (Chromosome.mk [3, 4]).genes.get ⟨i, hb⟩)) :=
  ⟨rfl, c4_uniform_crossover ⟨fun _ => 0, 0⟩ ⟨[1, 2]⟩ ⟨[3, 4]⟩ rfl⟩

theorem statFold_decompose {I : Type} (ind : Individual I) (l : List I) :
    ∀ (a b s : ℚ),
      l.foldl
        (fun acc i =>
          (min acc.1 (ind.fitness i), max acc.2.1 (ind.fitness i),
            acc.2.2 + ind.fitness i)) (a, b, s) =
        ((l.map ind.fitness).foldl min a, (l.map ind.fitness).foldl max b,
          s + (l.map ind.fitness).sum) := by
  induction l with
  | nil => intro a b s; simp
  | cons x xs ih =>
    intro a b s
    simp [List.foldl_cons, List.map_cons, List.sum_cons, ih, add_assoc]

theorem foldl_min_le_init (l : List ℚ) : ∀ a : ℚ, l.foldl min a ≤ a := by
  induction l with
  | nil => intro a; exact le_refl a
  | cons x xs ih =>
    intro a
    exact le_trans (ih (min a x)) (min_le_left a x)

theorem foldl_min_le_mem (l : List ℚ) :
    ∀ (a x : ℚ), x ∈ l → l.foldl min a ≤ x := by
  induction l with
  | nil => intro a x hx; cases hx
  | cons y ys ih =>
    intro a x hx
    rcases List.mem_cons.mp hx with h | h
    · subst h
      exact le_trans (foldl_min_le_init ys (min a x)) (min_le_right a x)
    · exact ih (min a y) x h

theorem foldl_min_mem (l : List ℚ) :
    ∀ a : ℚ, l.foldl min a = a ∨ l.foldl min a ∈ l := by
  induction l with
  | nil => intro a; exact Or.inl rfl
  | cons x xs ih =>
    intro a
    simp only [List.foldl_cons]
    rcases ih (min a x) with h | h
    · rcases min_choice a x with hm | hm
      · exact Or.inl (h.trans hm)
      · exact Or.inr (by rw [h, hm]; exact List.mem_cons_self x xs)
    · exact Or.inr (List.mem_cons_of_mem x h)

theorem foldl_max_le_init (l : List ℚ) : ∀ a : ℚ, a ≤ l.foldl max a := by
  induction l with
  | nil => intro a; exact le_refl a
  | cons x xs ih =>
    intro a
    exact le_trans (le_max_left a x) (ih (max a x))

theorem foldl_max_le_mem (l : List ℚ) :
    ∀ (a x : ℚ), x ∈ l → x ≤ l.foldl max a := by
  induction l with
  | nil => intro a x hx; cases hx
  | cons y ys ih =>
    intro a x hx
    rcases List.mem_cons.mp hx with h | h
    · subst h
      exact le_trans (le_max_right a x) (foldl_max_le_init ys (max a x))
    · exact ih (max a y) x h

theorem foldl_max_mem (l : List ℚ) :
    ∀ a : ℚ, l.foldl max a = a ∨ l.foldl max a ∈ l := by
  induction l with
  | nil => intro a; exact Or.inl rfl
  | cons x xs ih =>
    intro a
    simp only [List.foldl_cons]
    rcases ih (max a x) with h | h
    · rcases max_choice a x with hm | hm
      · exact Or.inl (h.trans hm)
      · exact Or.inr (by rw [h, hm]; exact List.mem_cons_self x xs)
    · exact Or.inr (List.mem_cons_of_mem x h)

/-- C7: on a non-empty population `Statistics::new` returns the true minimum
fitness, the true maximum fitness, and the arithmetic mean of the fitnesses;
on an empty population it fails fatally. -/
theorem c7_statistics {I : Type} (ind : Individual I) (population : List I)
    (h : population ≠ []) :
    Statistics.new ind ([] : List I) = .error .emptyPopulation ∧
    ∃ s, Statistics.new ind population = .ok s ∧
      (∀ x ∈ population,
        s.min_fitness ≤ ind.fitness x ∧ ind.fitness x ≤ s.max_fitness) ∧
      s.min_fitness ∈ population.map ind.fitness ∧
      s.max_fitness ∈ population.map ind.fitness ∧
      s.avg_fitness =
        (population.map ind.fitness).sum / (population.length : ℚ) := by
  refine ⟨rfl, ?_⟩
  cases population with
  | nil => exact absurd rfl h
  | cons p0 rest =>
    refine ⟨_, rfl, ?_, ?_, ?_, ?_⟩
    · intro x hx
      constructor
      · simp only [Statistics.new, statFold_decompose]
        exact foldl_min_le_mem _ _ _ (List.mem_map_of_mem ind.fitness hx)
      · simp only [Statistics.new, statFold_decompose]
        exact foldl_max_le_mem _ _ _ (List.mem_map_of_mem ind.fitness hx)
    · simp only [Statistics.new, statFold_decompose]
      rcases foldl_min_mem ((p0 :: rest).map ind.fitness) (ind.fitness p0)
        with hm | hm
      · rw [hm]; exact List.mem_map_of_mem ind.fitness (List.mem_cons_self p0 rest)
      · exact hm
    · simp only [Statistics.new, statFold_decompose]
      rcases foldl_max_mem ((p0 :: rest).map ind.fitness) (ind.fitness p0)
        with hm | hm
      · rw [hm]; exact List.mem_map_of_mem ind.fitness (List.mem_cons_self p0 rest)
      · exact hm
    · simp only [Statistics.new, statFold_decompose]
      rw [zero_add]

theorem c7_statistics_witness :
    ([Chromosome.mk [1], Chromosome.mk [2]] ≠ []) ∧
    (Statistics.new chromoIndividual ([] : List Chromosome) =
        .error .emptyPopulation ∧
      ∃ s, Statistics.new chromoIndividual
            [Chromosome.mk [1], Chromosome.mk [2]] = .ok s ∧
        (∀ x ∈ [Chromosome.mk [1], Chromosome.mk [2]],
          s.min_fitness ≤ chromoIndividual.fitness x ∧
            chromoIndividual.fitness x ≤ s.max_fitness) ∧
        s.min_fitness ∈
          ([Chromosome.mk [1], Chromosome.mk [2]]).map chromoIndividual.fitness ∧
        s.max_fitness ∈
          ([Chromosome.mk [1], Chromosome.mk [2]]).map chromoIndividual.fitness ∧
        s.avg_fitness =
          (([Chromosome.mk [1], Chromosome.mk [2]]).map
              chromoIndividual.fitness).sum /
            (([Chromosome.mk [1], Chromosome.mk [2]] : List Chromosome).length : ℚ)) :=
  ⟨by simp,
    c7_statistics chromoIndividual [Chromosome.mk [1], Chromosome.mk [2]] (by simp)⟩

/-- C10: `RouletteWheelSelection::select` panics not only on the empty
population: on any non-empty population whose fitnesses are all zero (all
weights non-negative and finite, total zero) the weighted-choice primitive
fails and the call hits the same `.expect` panic instead of returning a
member. -/
theorem c10_roulette_all_zero {I : Type} (ind : Individual I) (r : Rng)
    (population : List I) (hne : population ≠ [])
    (hz : ∀ x ∈ population, ind.fitness x = 0) :
    RouletteWheelSelection.select ind r population =
      .error .gotEmptyPopulation := by
  cases population with
  | nil => exact absurd rfl hne
  | cons p rest =>
    have hsum : ((p :: rest).map ind.fitness).sum = 0 := by
      apply List.sum_eq_zero
      intro q hq
      rcases List.mem_map.mp hq with ⟨x, hx, rfl⟩
      exact hz x hx
    have hneg : ¬ ∃ x ∈ p :: rest, ind.fitness x < 0 := by
      rintro ⟨x, hx, hlt⟩
      rw [hz x hx] at hlt
      exact lt_irrefl 0 hlt
    simp only [RouletteWheelSelection.select, chooseWeighted]
    rw [if_neg hneg, if_pos (le_of_eq hsum)]

theorem c10_roulette_all_zero_witness :
    ([Chromosome.mk [0], Chromosome.mk [0]] ≠ []) ∧
    (∀ x ∈ [Chromosome.mk [0], Chromosome.mk [0]],
        chromoIndividual.fitness x = 0) ∧
    RouletteWheelSelection.select chromoIndividual ⟨fun _ => 0, 0⟩
        [Chromosome.mk [0], Chromosome.mk [0]] =
      .error .gotEmptyPopulation :=
  ⟨by simp, by simp [chromoIndividual],
    c10_roulette_all_zero chromoIndividual ⟨fun _ => 0, 0⟩
      [Chromosome.mk [0], Chromosome.mk [0]] (by simp)
      (by simp [chromoIndividual])⟩

/-- C3 counterexample: the population of two zero-fitness individuals is
non-empty and has only non-negative (finite) fitnesses — it satisfies the
claim's stated precondition — yet `select` fails fatally instead of
returning a member. -/
theorem c3_roulette_counterexample :
    ([Chromosome.mk [0, 0], Chromosome.mk [0, 0]] ≠ []) ∧
    (∀ x ∈ [Chromosome.mk [0, 0], Chromosome.mk [0, 0]],
        0 ≤ chromoIndividual.fitness x) ∧
    RouletteWheelSelection.select chromoIndividual ⟨fun _ => 0, 0⟩
        [Chromosome.mk [0, 0], Chromosome.mk [0, 0]] =
      .error .gotEmptyPopulation := by
  refine ⟨by simp, by simp [chromoIndividual], ?_⟩
  simp [RouletteWheelSelection.select, chooseWeighted, chromoIndividual]

theorem pickByWeight_window {I : Type} (w : I → ℚ) :
    ∀ (l : List I) (t : ℚ), (∀ x ∈ l, 0 ≤ w x) → 0 ≤ t →
      t < (l.map w).sum →
      ∃ i, ∃ hi : i < l.length,
        pickByWeight w l t = some (l.get ⟨i, hi⟩) ∧
        ((l.map w).take i).sum ≤ t ∧ t < ((l.map w).take (i + 1)).sum
  | [], t, _, ht0, ht1 => by
    simp at ht1
    exact absurd ht1 (not_lt.mpr ht0)
  | x :: xs, t, hnn, ht0, ht1 => by
    by_cases hx : t < w x
    · refine ⟨0, by simp, ?_, ?_, ?_⟩
      · simp [pickByWeight, hx]
      · simpa using ht0
      · simpa using hx
    · have hwx : w x ≤ t := not_lt.mp hx
      have ht0' : 0 ≤ t - w x := by linarith
      have ht1' : t - w x < (xs.map w).sum := by
        simp only [List.map_cons, List.sum_cons] at ht1
        linarith
      obtain ⟨i, hi, hpick, hlow, hhigh⟩ :=
        pickByWeight_window w xs (t - w x) (fun y hy => hnn y (List.mem_cons_of_mem x hy))
          ht0' ht1'
      refine ⟨i + 1, by simpa using Nat.succ_lt_succ hi, ?_, ?_, ?_⟩
      · simpa [pickByWeight, hx] using hpick
      · simp only [List.map_cons, List.take_succ_cons, List.sum_cons]
        linarith
      · simp only [List.map_cons, List.take_succ_cons, List.sum_cons]
        linarith

theorem pickByWeight_of_window {I : Type} (w : I → ℚ) :
    ∀ (l : List I) (t : ℚ) (i : ℕ) (hi : i < l.length),
      (∀ x ∈ l, 0 ≤ w x) → 0 ≤ t →
      ((l.map w).take i).sum ≤ t → t < ((l.map w).take (i + 1)).sum →
      pickByWeight w l t = some (l.get ⟨i, hi⟩)
  | [], t, i, hi, _, _, _, _ => by simp at hi
  | x :: xs, t, 0, hi, hnn, ht0, hlow, hhigh => by
    have hx : t < w x := by simpa using hhigh
    simp [pickByWeight, hx]
  | x :: xs, t, i + 1, hi, hnn, ht0, hlow, hhigh => by
    have hlow' : w x + ((xs.map w).take i).sum ≤ t := by
      simpa [List.take_succ_cons] using hlow
    have htake : (0 : ℚ) ≤ ((xs.map w).take i).sum := by
      apply List.sum_nonneg
      intro q hq
      rcases List.mem_map.mp (List.take_subset i (xs.map w) hq) with ⟨y, hy, rfl⟩
      exact hnn y (List.mem_cons_of_mem x hy)
    have hx : ¬ t < w x := by linarith
    have hrec := pickByWeight_of_window w xs (t - w x) i (by simpa using hi)
      (fun y hy => hnn y (List.mem_cons_of_mem x hy)) (by linarith)
      (by linarith)
      (by
        simp only [List.map_cons, List.take_succ_cons, List.sum_cons] at hhigh
        linarith)
    simpa [pickByWeight, hx] using hrec

/-- C3 (amended): for a non-empty population with non-negative fitnesses and
positive total fitness, and a well-formed draw `u ∈ [0,1)`,
`RouletteWheelSelection::select` consumes one draw and returns the member at
the unique index whose cumulative-fitness window `[cum i, cum (i+1))`
contains `u * total`; every index's window has width exactly its member's
fitness, so each member is chosen with probability `fitness / total`.  On an
empty population `select` fails fatally. -/
theorem c3_roulette_selection {I : Type} (ind : Individual I) (r : Rng)
    (population : List I) (hne : population ≠ [])
    (hnn : ∀ x ∈ population, 0 ≤ ind.fitness x)
    (hpos : 0 < (population.map ind.fitness).sum)
    (hu0 : 0 ≤ r.stream r.pos) (hu1 : r.stream r.pos < 1) :
    (∀ r1 : Rng, RouletteWheelSelection.select ind r1 ([] : List I) =
        .error .gotEmptyPopulation) ∧
    (∃ i, ∃ hi : i < population.length,
      RouletteWheelSelection.select ind r population =
        .ok (population.get ⟨i, hi⟩, ⟨r.stream, r.pos + 1⟩) ∧
      cumFitness ind population i ≤
          r.stream r.pos * (population.map ind.fitness).sum ∧
      r.stream r.pos * (population.map ind.fitness).sum <
          cumFitness ind population (i + 1)) ∧
    (∀ i, ∀ hi : i < population.length,
      cumFitness ind population i ≤
          r.stream r.pos * (population.map ind.fitness).sum →
      r.stream r.pos * (population.map ind.fitness).sum <
          cumFitness ind population (i + 1) →
      RouletteWheelSelection.select ind r population =
        .ok (population.get ⟨i, hi⟩, ⟨r.stream, r.pos + 1⟩)) ∧
    (∀ i, ∀ hi : i < population.length,
      cumFitness ind population (i + 1) - cumFitness ind population i =
        ind.fitness (population.get ⟨i, hi⟩)) := by
  have hneg : ¬ ∃ x ∈ population, ind.fitness x < 0 := by
    rintro ⟨x, hx, hlt⟩
    exact absurd (hnn x hx) (not_le.mpr hlt)
  have hnot : ¬ (population.map ind.fitness).sum ≤ 0 := not_le.mpr hpos
  have ht0 : 0 ≤ r.stream r.pos * (population.map ind.fitness).sum :=
    mul_nonneg hu0 (le_of_lt hpos)
  have ht1 : r.stream r.pos * (population.map ind.fitness).sum <
      (population.map ind.fitness).sum := by
    calc r.stream r.pos * (population.map ind.fitness).sum
        < 1 * (population.map ind.fitness).sum := by
          exact mul_lt_mul_of_pos_right hu1 hpos
      _ = (population.map ind.fitness).sum := one_mul _
  refine ⟨fun r1 => rfl, ?_, ?_, ?_⟩
  · obtain ⟨i, hi, hpick, hlow, hhigh⟩ :=
      pickByWeight_window ind.fitness population _ hnn ht0 ht1
    refine ⟨i, hi, ?_, hlow, hhigh⟩
    cases population with
    | nil => simp at hi
    | cons p rest =>
      simp only [RouletteWheelSelection.select, chooseWeighted]
      rw [if_neg hneg, if_neg hnot]
      simp only [Rng.next]
      rw [hpick]
  · intro i hi hlow hhigh
    have hpick := pickByWeight_of_window ind.fitness population _ i hi hnn ht0
      hlow hhigh
    cases population with
    | nil => simp at hi
    | cons p rest =>
      simp only [RouletteWheelSelection.select, chooseWeighted]
      rw [if_neg hneg, if_neg hnot]
      simp only [Rng.next]
      rw [hpick]
  · intro i hi
    have htake : (population.map ind.fitness).take (i + 1) =
        (population.map ind.fitness).take i ++
          [(population.map ind.fitness).get ⟨i, by simpa using hi⟩] := by
      rw [List.take_succ]
      congr 1
      rw [List.getElem?_eq_getElem (by simpa using hi)]
      simp [Option.toList, List.get_eq_getElem]
    unfold cumFitness
    rw [htake, List.sum_append, List.sum_cons, List.sum_nil, add_zero]
    simp only [List.get_eq_getElem, List.getElem_map]
    ring

def r0 : Rng := ⟨fun _ => 0, 0⟩

def pop34 : List Chromosome := [⟨[3]⟩, ⟨[4]⟩]

theorem c3_roulette_selection_witness :
    (pop34 ≠ []) ∧
    (∀ x ∈ pop34, 0 ≤ chromoIndividual.fitness x) ∧
    (0 < (pop34.map chromoIndividual.fitness).sum) ∧
    (0 ≤ r0.stream r0.pos) ∧ (r0.stream r0.pos < 1) ∧
    ((∀ r1 : Rng, RouletteWheelSelection.select chromoIndividual r1
          ([] : List Chromosome) = .error .gotEmptyPopulation) ∧
      (∃ i, ∃ hi : i < pop34.length,
        RouletteWheelSelection.select chromoIndividual r0 pop34 =
          .ok (pop34.get ⟨i, hi⟩, ⟨r0.stream, r0.pos + 1⟩) ∧
        cumFitness chromoIndividual pop34 i ≤
            r0.stream r0.pos * (pop34.map chromoIndividual.fitness).sum ∧
        r0.stream r0.pos * (pop34.map chromoIndividual.fitness).sum <
            cumFitness chromoIndividual pop34 (i + 1)) ∧
      (∀ i, ∀ hi : i < pop34.length,
        cumFitness chromoIndividual pop34 i ≤
            r0.stream r0.pos * (pop34.map chromoIndividual.fitness).sum →
        r0.stream r0.pos * (pop34.map chromoIndividual.fitness).sum <
            cumFitness chromoIndividual pop34 (i + 1) →
        RouletteWheelSelection.select chromoIndividual r0 pop34 =
          .ok (pop34.get ⟨i, hi⟩, ⟨r0.stream, r0.pos + 1⟩)) ∧
      (∀ i, ∀ hi : i < pop34.length,
        cumFitness chromoIndividual pop34 (i + 1) -
            cumFitness chromoIndividual pop34 i =
          chromoIndividual.fitness (pop34.get ⟨i, hi⟩))) := by
  refine ⟨by simp [pop34], ?_, ?_, ?_, ?_, ?_⟩
  · intro x hx
    simp only [pop34, List.mem_cons, List.not_mem_nil, or_false] at hx
    rcases hx with rfl | rfl <;> norm_num [chromoIndividual]
  · norm_num [pop34, chromoIndividual]
  · norm_num [r0]
  · norm_num [r0]
  · refine c3_roulette_selection chromoIndividual r0 pop34 (by simp [pop34])
      ?_ (by norm_num [pop34, chromoIndividual]) (by norm_num [r0])
      (by norm_num [r0])
    intro x hx
    simp only [pop34, List.mem_cons, List.not_mem_nil, or_false] at hx
    rcases hx with rfl | rfl <;> norm_num [chromoIndividual]

theorem evolveGo_spec {I : Type} (ga : GeneticAlgorithm I) (ind : Individual I)
    (population : List I) :
    ∀ (n : ℕ) (r : Rng) (xs : List I) (r1 : Rng),
      evolveGo ga ind population n r = .ok (xs, r1) →
      xs.length = n ∧ StepChain ga ind population r xs r1 := by
  intro n
  induction n with
  | zero =>
    intro r xs r1 h
    simp only [evolveGo] at h
    cases h
    exact ⟨rfl, rfl⟩
  | succ n ih =>
    intro r xs r1 h
    cases hstep : evolveStep ga ind population r with
    | error e =>
      simp only [evolveGo, hstep] at h
      exact Except.noConfusion h
    | ok p =>
      obtain ⟨x, rm⟩ := p
      cases hgo : evolveGo ga ind population n rm with
      | error e =>
        simp only [evolveGo, hstep, hgo] at h
        exact Except.noConfusion h
      | ok q =>
        obtain ⟨ys, r2⟩ := q
        simp only [evolveGo, hstep, hgo] at h
        cases h
        obtain ⟨hlen, hchain⟩ := ih rm ys r1 hgo
        exact ⟨by simp [hlen], rm, hstep, hchain⟩

/-- C1: on a non-empty input population of size `N`, a successful
`GeneticAlgorithm::evolve` returns exactly `N` individuals, each produced in
order by one `evolveStep` — parent A selected by the selection strategy,
parent B selected independently by the selection strategy, their chromosomes
crossed over by the crossover strategy, the child mutated by the mutation
strategy, and a new individual constructed from it — and the returned
`Statistics` snapshot is the one computed over the input population. -/
theorem c1_evolve {I : Type} (ga : GeneticAlgorithm I) (ind : Individual I)
    (r : Rng) (population : List I) (hne : population ≠ [])
    (newPop : List I) (stats : Statistics) (r1 : Rng)
    (hok : ga.evolve ind r population = .ok (newPop, stats, r1)) :
    newPop.length = population.length ∧
    Statistics.new ind population = .ok stats ∧
    StepChain ga ind population r newPop r1 := by
  cases population with
  | nil => exact absurd rfl hne
  | cons p rest =>
    cases hgo : evolveGo ga ind (p :: rest) (p :: rest).length r with
    | error e =>
      simp only [GeneticAlgorithm.evolve, hgo] at hok
      exact Except.noConfusion hok
    | ok pr =>
      obtain ⟨np, r2⟩ := pr
      cases hst : Statistics.new ind (p :: rest) with
      | error e =>
        simp only [GeneticAlgorithm.evolve, hgo, hst] at hok
        exact Except.noConfusion hok
      | ok s =>
        simp only [GeneticAlgorithm.evolve, hgo, hst] at hok
        cases hok
        obtain ⟨hlen, hchain⟩ :=
          evolveGo_spec ga ind (p :: rest) _ r newPop r1 hgo
        exact ⟨hlen, rfl, hchain⟩

def mu0 : GaussianMutation := ⟨1 / 2, 1 / 2⟩

def pop2 : List Chromosome := [⟨[1, 2]⟩, ⟨[2, 2]⟩]

def np2 : List Chromosome := [⟨[1, 2]⟩, ⟨[1, 2]⟩]

def st2 : Statistics := ⟨3, 4, 7 / 2⟩

theorem c1_evolve_witness :
    (pop2 ≠ []) ∧
    ((gaOf chromoIndividual mu0).evolve chromoIndividual r0 pop2 =
        .ok (np2, st2, ⟨fun _ => 0, 20⟩)) ∧
    (np2.length = pop2.length ∧
      Statistics.new chromoIndividual pop2 = .ok st2 ∧
      StepChain (gaOf chromoIndividual mu0) chromoIndividual pop2 r0 np2
        ⟨fun _ => 0, 20⟩) := by
  have hok : (gaOf chromoIndividual mu0).evolve chromoIndividual r0 pop2 =
      .ok (np2, st2, ⟨fun _ => 0, 20⟩) := by
    norm_num [GeneticAlgorithm.evolve, evolveGo, evolveStep, gaOf,
      RouletteWheelSelection.select, chooseWeighted, pickByWeight,
      UniformCrossover.crossover, crossoverGo, GaussianMutation.mutate,
      mutateGo, Statistics.new, Rng.genBool, Rng.genFloat, Rng.next,
      chromoIndividual, r0, pop2, np2, st2, mu0, Chromosome.len,
      min_def, max_def]
  exact ⟨by simp [pop2], hok,
    c1_evolve (gaOf chromoIndividual mu0) chromoIndividual r0 pop2
      (by simp [pop2]) np2 st2 ⟨fun _ => 0, 20⟩ hok⟩

/-- Same first value and agreeing successor states. -/
def PairAgrees {α : Type} (p q : α × Rng) : Prop :=
  p.1 = q.1 ∧ p.2.Agrees q.2

/-- Agreement of optional draws. -/
def OptAgrees {α : Type} : Option (α × Rng) → Option (α × Rng) → Prop
  | none, none => True
  | some p, some q => PairAgrees p q
  | _, _ => False

/-- Agreement of fallible results: same panic, or same value with agreeing
successor states. -/
def ExceptAgrees {α : Type} :
    Except GaPanic (α × Rng) → Except GaPanic (α × Rng) → Prop
  | .error e1, .error e2 => e1 = e2
  | .ok p, .ok q => PairAgrees p q
  | _, _ => False

theorem Rng.Agrees.head {r1 r2 : Rng} (h : r1.Agrees r2) :
    r1.stream r1.pos = r2.stream r2.pos := by
  have h0 := h 0
  simpa using h0

theorem Rng.Agrees.step {r1 r2 : Rng} (h : r1.Agrees r2) :
    Rng.Agrees ⟨r1.stream, r1.pos + 1⟩ ⟨r2.stream, r2.pos + 1⟩ := by
  intro n
  have e1 : r1.pos + 1 + n = r1.pos + (n + 1) := by omega
  have e2 : r2.pos + 1 + n = r2.pos + (n + 1) := by omega
  show r1.stream (r1.pos + 1 + n) = r2.stream (r2.pos + 1 + n)
  rw [e1, e2]
  exact h (n + 1)

theorem genBool_congr {r1 r2 : Rng} (h : r1.Agrees r2) (p : ℚ) :
    PairAgrees (r1.genBool p) (r2.genBool p) := by
  constructor
  · simp only [Rng.genBool, Rng.next, h.head]
  · exact h.step

theorem chooseWeighted_congr {I : Type} {r1 r2 : Rng} (h : r1.Agrees r2)
    (items : List I) (w : I → ℚ) :
    OptAgrees (chooseWeighted r1 items w) (chooseWeighted r2 items w) := by
  cases items with
  | nil => exact trivial
  | cons p rest =>
    simp only [chooseWeighted]
    by_cases hneg : ∃ x ∈ p :: rest, w x < 0
    · rw [if_pos hneg, if_pos hneg]
      exact trivial
    · rw [if_neg hneg, if_neg hneg]
      by_cases hle : (List.map w (p :: rest)).sum ≤ 0
      · rw [if_pos hle, if_pos hle]
        exact trivial
      · rw [if_neg hle, if_neg hle]
        simp only [Rng.next]
        rw [h.head]
        cases hp : pickByWeight w (p :: rest)
            (r2.stream r2.pos * (List.map w (p :: rest)).sum) with
        | none => exact trivial
        | some x => exact ⟨rfl, h.step⟩

theorem select_congr {I : Type} (ind : Individual I) {r1 r2 : Rng}
    (h : r1.Agrees r2) (population : List I) :
    ExceptAgrees (RouletteWheelSelection.select ind r1 population)
      (RouletteWheelSelection.select ind r2 population) := by
  have hcw := chooseWeighted_congr h population ind.fitness
  simp only [RouletteWheelSelection.select]
  cases e1 : chooseWeighted r1 population ind.fitness with
  | none =>
    cases e2 : chooseWeighted r2 population ind.fitness with
    | none => exact rfl
    | some q => rw [e1, e2] at hcw; exact hcw.elim
  | some p =>
    cases e2 : chooseWeighted r2 population ind.fitness with
    | none => rw [e1, e2] at hcw; exact hcw.elim
    | some q => rw [e1, e2] at hcw; exact hcw

theorem crossoverGo_congr (xs : List ℚ) :
    ∀ (ys : List ℚ) (r1 r2 : Rng), r1.Agrees r2 →
      (crossoverGo r1 xs ys).1 = (crossoverGo r2 xs ys).1 ∧
      (crossoverGo r1 xs ys).2.Agrees (crossoverGo r2 xs ys).2 := by
  induction xs with
  | nil => intro ys r1 r2 h; exact ⟨rfl, h⟩
  | cons a xs ih =>
    intro ys r1 r2 h
    cases ys with
    | nil => exact ⟨rfl, h⟩
    | cons b ys =>
      obtain ⟨e1, e2⟩ :=
        ih ys ⟨r1.stream, r1.pos + 1⟩ ⟨r2.stream, r2.pos + 1⟩ h.step
      constructor
      · simp only [crossoverGo, Rng.genBool, Rng.next, h.head, e1]
      · simp only [crossoverGo, Rng.genBool, Rng.next]
        exact e2

theorem crossover_congr {r1 r2 : Rng} (h : r1.Agrees r2)
    (a b : Chromosome) :
    ExceptAgrees (UniformCrossover.crossover r1 a b)
      (UniformCrossover.crossover r2 a b) := by
  unfold UniformCrossover.crossover
  by_cases hl : a.len = b.len
  · rw [if_pos hl, if_pos hl]
    obtain ⟨e1, e2⟩ := crossoverGo_congr a.genes b.genes r1 r2 h
    exact ⟨congrArg Chromosome.mk e1, e2⟩
  · rw [if_neg hl, if_neg hl]
    exact rfl

theorem mutateGo_congr (mu : GaussianMutation) (gs : List ℚ) :
    ∀ (r1 r2 : Rng), r1.Agrees r2 →
      (mutateGo mu r1 gs).1 = (mutateGo mu r2 gs).1 ∧
      (mutateGo mu r1 gs).2.Agrees (mutateGo mu r2 gs).2 := by
  induction gs with
  | nil => intro r1 r2 h; exact ⟨rfl, h⟩
  | cons g gs ih =>
    intro r1 r2 h
    have h0 : r1.stream r1.pos = r2.stream r2.pos := h.head
    have h1 : r1.stream (r1.pos + 1) = r2.stream (r2.pos + 1) := h.step.head
    by_cases ht : r1.stream (r1.pos + 1) < mu.chance
    · have ht2 : r2.stream (r2.pos + 1) < mu.chance := h1 ▸ ht
      obtain ⟨e1, e2⟩ :=
        ih ⟨r1.stream, r1.pos + 1 + 1 + 1⟩ ⟨r2.stream, r2.pos + 1 + 1 + 1⟩
          h.step.step.step
      have h2 : r1.stream (r1.pos + 1 + 1) = r2.stream (r2.pos + 1 + 1) :=
        h.step.step.head
      constructor
      · simp [mutateGo, Rng.genBool, Rng.genFloat, Rng.next, ht, ht2,
          h0, h1, h2, e1]
      · simp only [mutateGo, Rng.genBool, Rng.genFloat, Rng.next, ht, ht2,
          if_pos]
        simpa using e2
    · have ht2 : ¬ r2.stream (r2.pos + 1) < mu.chance := h1 ▸ ht
      obtain ⟨e1, e2⟩ :=
        ih ⟨r1.stream, r1.pos + 1 + 1⟩ ⟨r2.stream, r2.pos + 1 + 1⟩
          h.step.step
      constructor
      · simp [mutateGo, Rng.genBool, Rng.genFloat, Rng.next, ht, ht2,
          h0, e1]
      · simp only [mutateGo, Rng.genBool, Rng.genFloat, Rng.next, ht, ht2,
          if_neg]
        simpa using e2

theorem mutate_congr (mu : GaussianMutation) {r1 r2 : Rng}
    (h : r1.Agrees r2) (c : Chromosome) :
    PairAgrees (mu.mutate r1 c) (mu.mutate r2 c) := by
  obtain ⟨e1, e2⟩ := mutateGo_congr mu c.genes r1 r2 h
  exact ⟨congrArg Chromosome.mk e1, e2⟩

theorem evolveStep_congr {I : Type} (ind : Individual I)
    (mu : GaussianMutation) (population : List I) {r1 r2 : Rng}
    (h : r1.Agrees r2) :
    ExceptAgrees (evolveStep (gaOf ind mu) ind population r1)
      (evolveStep (gaOf ind mu) ind population r2) := by
  have hs := select_congr ind h population
  cases e1 : RouletteWheelSelection.select ind r1 population with
  | error a =>
    cases e2 : RouletteWheelSelection.select ind r2 population with
    | error b =>
      have hab : a = b := by rw [e1, e2] at hs; exact hs
      subst hab
      simp only [evolveStep, gaOf, e1, e2]
      exact rfl
    | ok q => rw [e1, e2] at hs; exact hs.elim
  | ok p =>
    cases e2 : RouletteWheelSelection.select ind r2 population with
    | error b => rw [e1, e2] at hs; exact hs.elim
    | ok q =>
      obtain ⟨x1, rr1⟩ := p
      obtain ⟨x2, rr2⟩ := q
      rw [e1, e2] at hs
      obtain ⟨hx, hr⟩ := hs
      simp only at hx
      subst hx
      have hs2 := select_congr ind hr population
      cases f1 : RouletteWheelSelection.select ind rr1 population with
      | error a2 =>
        cases f2 : RouletteWheelSelection.select ind rr2 population with
        | error b2 =>
          have hab : a2 = b2 := by rw [f1, f2] at hs2; exact hs2
          subst hab
          simp only [evolveStep, gaOf, e1, e2, f1, f2]
          exact rfl
        | ok q2 => rw [f1, f2] at hs2; exact hs2.elim
      | ok p2 =>
        cases f2 : RouletteWheelSelection.select ind rr2 population with
        | error b2 => rw [f1, f2] at hs2; exact hs2.elim
        | ok q2 =>
          obtain ⟨y1, ss1⟩ := p2
          obtain ⟨y2, ss2⟩ := q2
          rw [f1, f2] at hs2
          obtain ⟨hy, hr2⟩ := hs2
          simp only at hy
          subst hy
          have hc :=
            crossover_congr hr2 (ind.chromosome x1) (ind.chromosome y1)
          cases g1 : UniformCrossover.crossover ss1 (ind.chromosome x1)
              (ind.chromosome y1) with
          | error a3 =>
            cases g2 : UniformCrossover.crossover ss2 (ind.chromosome x1)
                (ind.chromosome y1) with
            | error b3 =>
              have hab : a3 = b3 := by rw [g1, g2] at hc; exact hc
              subst hab
              simp only [evolveStep, gaOf, e1, e2, f1, f2, g1, g2]
              exact rfl
            | ok q3 => rw [g1, g2] at hc; exact hc.elim
          | ok p3 =>
            cases g2 : UniformCrossover.crossover ss2 (ind.chromosome x1)
                (ind.chromosome y1) with
            | error b3 => rw [g1, g2] at hc; exact hc.elim
            | ok q3 =>
              obtain ⟨c1, tt1⟩ := p3
              obtain ⟨c2, tt2⟩ := q3
              rw [g1, g2] at hc
              obtain ⟨hcc, hr3⟩ := hc
              simp only at hcc
              subst hcc
              obtain ⟨hm1, hm2⟩ := mutate_congr mu hr3 c1
              simp only [evolveStep, gaOf, e1, e2, f1, f2, g1, g2]
              exact ⟨congrArg ind.create hm1, hm2⟩

theorem evolveGo_congr {I : Type} (ind : Individual I)
    (mu : GaussianMutation) (population : List I) (n : ℕ) :
    ∀ (r1 r2 : Rng), r1.Agrees r2 →
      ExceptAgrees (evolveGo (gaOf ind mu) ind population n r1)
        (evolveGo (gaOf ind mu) ind population n r2) := by
  induction n with
  | zero => intro r1 r2 h; exact ⟨rfl, h⟩
  | succ n ih =>
    intro r1 r2 h
    have hs := evolveStep_congr ind mu population h
    cases e1 : evolveStep (gaOf ind mu) ind population r1 with
    | error a =>
      cases e2 : evolveStep (gaOf ind mu) ind population r2 with
      | error b =>
        have hab : a = b := by rw [e1, e2] at hs; exact hs
        subst hab
        simp only [evolveGo, e1, e2]
        exact rfl
      | ok q => rw [e1, e2] at hs; exact hs.elim
    | ok p =>
      cases e2 : evolveStep (gaOf ind mu) ind population r2 with
      | error b => rw [e1, e2] at hs; exact hs.elim
      | ok q =>
        obtain ⟨x1, rr1⟩ := p
        obtain ⟨x2, rr2⟩ := q
        rw [e1, e2] at hs
        obtain ⟨hx, hr⟩ := hs
        simp only at hx
        subst hx
        have hgo := ih rr1 rr2 hr
        cases f1 : evolveGo (gaOf ind mu) ind population n rr1 with
        | error a2 =>
          cases f2 : evolveGo (gaOf ind mu) ind population n rr2 with
          | error b2 =>
            have hab : a2 = b2 := by rw [f1, f2] at hgo; exact hgo
            subst hab
            simp only [evolveGo, e1, e2, f1, f2]
            exact rfl
          | ok q2 => rw [f1, f2] at hgo; exact hgo.elim
        | ok p2 =>
          cases f2 : evolveGo (gaOf ind mu) ind population n rr2 with
          | error b2 => rw [f1, f2] at hgo; exact hgo.elim
          | ok q2 =>
            obtain ⟨xs1, u1⟩ := p2
            obtain ⟨xs2, u2⟩ := q2
            rw [f1, f2] at hgo
            obtain ⟨hxs, hu⟩ := hgo
            simp only at hxs
            subst hxs
            simp only [evolveGo, e1, e2, f1, f2]
            exact ⟨rfl, hu⟩

/-- C5: `GeneticAlgorithm::evolve` with the concrete roulette-wheel
selection, uniform crossover and gaussian mutation strategies is
deterministic: two random sources in the same state (producing the same
draw sequence from their current positions on) yield the same outcome — the
same panic, or an identical output population and identical statistics —
because every draw is taken from the single supplied source in a fixed
order (per output individual: two selection draws, one crossover pass, one
mutation pass). -/
theorem c5_evolve_deterministic {I : Type} (ind : Individual I)
    (mu : GaussianMutation) (population : List I) {r1 r2 : Rng}
    (h : r1.Agrees r2) :
    Except.map (fun t => (t.1, t.2.1))
        ((gaOf ind mu).evolve ind r1 population) =
      Except.map (fun t => (t.1, t.2.1))
        ((gaOf ind mu).evolve ind r2 population) := by
  cases population with
  | nil => rfl
  | cons p rest =>
    have hgo := evolveGo_congr ind mu (p :: rest) (p :: rest).length r1 r2 h
    cases e1 : evolveGo (gaOf ind mu) ind (p :: rest) (p :: rest).length r1 with
    | error a =>
      cases e2 : evolveGo (gaOf ind mu) ind (p :: rest) (p :: rest).length r2 with
      | error b =>
        have hab : a = b := by rw [e1, e2] at hgo; exact hgo
        subst hab
        simp only [GeneticAlgorithm.evolve, e1, e2]
      | ok q => rw [e1, e2] at hgo; exact hgo.elim
    | ok p1 =>
      cases e2 : evolveGo (gaOf ind mu) ind (p :: rest) (p :: rest).length r2 with
      | error b => rw [e1, e2] at hgo; exact hgo.elim
      | ok q1 =>
        obtain ⟨np1, u1⟩ := p1
        obtain ⟨np2, u2⟩ := q1
        rw [e1, e2] at hgo
        obtain ⟨hnp, hu⟩ := hgo
        simp only at hnp
        subst hnp
        cases hst : Statistics.new ind (p :: rest) with
        | error a =>
          simp only [GeneticAlgorithm.evolve, e1, e2, hst, Except.map]
        | ok s =>
          simp only [GeneticAlgorithm.evolve, e1, e2, hst, Except.map]

theorem c5_evolve_deterministic_witness :
    (Rng.Agrees ⟨fun _ => 0, 5⟩ ⟨fun _ => 0, 0⟩) ∧
    (Except.map (fun t => (t.1, t.2.1))
        ((gaOf chromoIndividual mu0).evolve chromoIndividual
          ⟨fun _ => 0, 5⟩ pop2) =
      Except.map (fun t => (t.1, t.2.1))
        ((gaOf chromoIndividual mu0).evolve chromoIndividual
          ⟨fun _ => 0, 0⟩ pop2)) :=
  ⟨fun _ => rfl,
    c5_evolve_deterministic chromoIndividual mu0 pop2 (fun _ => rfl)⟩

end Evobird
